import Mathlib

/-!
# Verification of the trading-dashboard cache and position-history reconstruction

Shallow embedding of the in-scope fragment of the repository:

* the process-wide response cache of `src/app/api/alpaca/route.ts`
  (`memoryCache`, `CACHE_DURATION_MS`, `ALPACA_CACHE_DURATION_MS`, and the
  per-endpoint fetch-and-cache cycles),
* the position-history reconstruction (`agentPerformanceHistory` /
  `positionsAtPoint`) and the synthetic fallback bar generator,
* the hourly deduplication of portfolio-history samples
  (`hourlyData` / `formattedHistory` in `StaticDashboard.tsx` and
  `dashboard/page.tsx`).

JavaScript plain objects used as dictionaries are embedded as association
lists with in-place update (first binding wins on lookup, insertion order
preserved, a repeated key overwrites its value in place), which matches the
observable key ordering of `Object.entries` / `Object.values` for the
non-integer-like keys these components use.  Timestamps (`Date.now()`,
`getTime()`) are integers of epoch milliseconds; JavaScript numbers are
embedded as rationals, with `NaN` represented by `Option.none` where it can
arise from `parseFloat`.
-/

namespace Dash

/-! ## JavaScript objects as association lists -/

/-- Lookup in a JS-object-like association list (`obj[k]`, `undefined ↦ none`). -/
def objGet {κ ν : Type} [DecidableEq κ] : List (κ × ν) → κ → Option ν
  | [], _ => none
  | (k', v) :: rest, k => if k' = k then some v else objGet rest k

/-- Assignment `obj[k] = v`: overwrite in place if the key exists, else append
(insertion order is preserved, as for JS object keys). -/
def objSet {κ ν : Type} [DecidableEq κ] : List (κ × ν) → κ → ν → List (κ × ν)
  | [], k, v => [(k, v)]
  | (k', v') :: rest, k, v =>
    if k' = k then (k, v) :: rest else (k', v') :: objSet rest k v

theorem objGet_objSet {κ ν : Type} [DecidableEq κ]
    (m : List (κ × ν)) (k k' : κ) (v : ν) :
    objGet (objSet m k v) k' = if k = k' then some v else objGet m k' := by
  induction m with
  | nil => by_cases h : k = k' <;> simp [objSet, objGet, h]
  | cons hd tl ih =>
    obtain ⟨k₀, v₀⟩ := hd
    by_cases h₀ : k₀ = k
    · subst h₀
      by_cases h : k₀ = k' <;> simp [objSet, objGet, h]
    · by_cases h₁ : k₀ = k'
      · subst h₁
        have hk : ¬ k = k₀ := fun he => h₀ he.symm
        simp [objSet, objGet, h₀, hk]
      · simp [objSet, objGet, h₀, h₁, ih]

theorem objSet_keys_sub {κ ν : Type} [DecidableEq κ]
    (m : List (κ × ν)) (k : κ) (v : ν) :
    ((objSet m k v).map Prod.fst) ⊆ k :: m.map Prod.fst := by
  induction m with
  | nil => simp [objSet]
  | cons hd tl ih =>
    obtain ⟨k₀, v₀⟩ := hd
    by_cases h₀ : k₀ = k
    · subst h₀
      simp only [objSet, eq_self_iff_true, if_true, List.map_cons]
      intro a ha
      simp only [List.mem_cons] at ha ⊢
      tauto
    · simp only [objSet, if_neg h₀, List.map_cons]
      intro a ha
      simp only [List.mem_cons] at ha ⊢
      rcases ha with rfl | ha
      · tauto
      · have := ih ha
        simp only [List.mem_cons] at this
        tauto

theorem objSet_keys_nodup {κ ν : Type} [DecidableEq κ]
    (m : List (κ × ν)) (k : κ) (v : ν)
    (h : (m.map Prod.fst).Nodup) : ((objSet m k v).map Prod.fst).Nodup := by
  induction m with
  | nil => simp [objSet]
  | cons hd tl ih =>
    obtain ⟨k₀, v₀⟩ := hd
    simp only [List.map_cons, List.nodup_cons] at h
    by_cases h₀ : k₀ = k
    · subst h₀
      simp only [objSet, eq_self_iff_true, if_true, List.map_cons, List.nodup_cons]
      exact h
    · simp only [objSet, if_neg h₀, List.map_cons, List.nodup_cons]
      refine ⟨fun hk => ?_, ih h.2⟩
      have hsub := objSet_keys_sub tl k v hk
      simp only [List.mem_cons] at hsub
      rcases hsub with h' | h'
      · exact h₀ h'
      · exact h.1 h'

/-- Under key uniqueness, membership in the association list determines lookup. -/
theorem objGet_of_mem {κ ν : Type} [DecidableEq κ]
    {m : List (κ × ν)} {k : κ} {v : ν}
    (hnd : (m.map Prod.fst).Nodup) (hm : (k, v) ∈ m) : objGet m k = some v := by
  induction m with
  | nil => simp at hm
  | cons hd tl ih =>
    obtain ⟨k₀, v₀⟩ := hd
    simp only [List.map_cons, List.nodup_cons] at hnd
    rcases List.mem_cons.mp hm with h | h
    · cases h; simp [objGet]
    · have hk : k₀ ≠ k := by
        intro hk; subst hk
        exact hnd.1 (List.mem_map.mpr ⟨(k₀, v), h, rfl⟩)
      simp only [objGet, if_neg hk]
      exact ih hnd.2 h

/-! ## The response cache (`src/app/api/alpaca/route.ts`) -/

/-- Constant `CACHE_DURATION_MS = 7 * 24 * 60 * 60 * 1000` (one week, ms). -/
def CACHE_DURATION_MS : ℤ := 7 * 24 * 60 * 60 * 1000

/-- Constant `ALPACA_CACHE_DURATION_MS = 5 * 60 * 1000` (five minutes, ms). -/
def ALPACA_CACHE_DURATION_MS : ℤ := 5 * 60 * 1000

/-- Does `pat` occur as a contiguous run at the front of `l`? -/
def listStartsWith {α : Type} [DecidableEq α] : List α → List α → Bool
  | _, [] => true
  | [], _ :: _ => false
  | a :: as, b :: bs => a = b && listStartsWith as bs

/-- Does `pat` occur contiguously anywhere inside `l` (JS `String.includes`)? -/
def listHasSub {α : Type} [DecidableEq α] : List α → List α → Bool
  | [], pat => listStartsWith ([] : List α) pat
  | a :: rest, pat => listStartsWith (a :: rest) pat || listHasSub rest pat

/-- Substring test `key.includes(pat)` on strings. -/
def strHasSub (s pat : String) : Bool := listHasSub s.data pat.data

/-- Key classification used by the route (`key.includes('stock-bars') ||
key.includes('spy-bars') || key.includes('qqq-bars')`). -/
def isBarsKey (key : String) : Bool :=
  strHasSub key "stock-bars" || strHasSub key "spy-bars" || strHasSub key "qqq-bars"

/-- TTL per key class: one week for historical-bar keys, five minutes for the
rest (the per-endpoint branches hard-code the matching constant; the unified
classification is the one in `logCacheSummary`). -/
def ttlOf (key : String) : ℤ :=
  if isBarsKey key then CACHE_DURATION_MS else ALPACA_CACHE_DURATION_MS

/-- A `memoryCache` entry: `{ data, timestamp }`. -/
structure CEntry (α : Type) where
  data : α
  timestamp : ℤ
deriving DecidableEq, Repr

/-- The process-wide `memoryCache` record. -/
def Cache (α : Type) : Type := List (String × CEntry α)

/-- Lookup `memoryCache[cacheKey]`. -/
def cacheGet {α : Type} (m : Cache α) (k : String) : Option (CEntry α) :=
  objGet m k

/-- Store `memoryCache[cacheKey] = (data, timestamp: now)`. -/
def cachePut {α : Type} (m : Cache α) (k : String) (d : α) (now : ℤ) : Cache α :=
  objSet m k ⟨d, now⟩

/-- The lookup pattern of every endpoint branch:
`if (cached && (now - cached.timestamp) < ttl) return cached.data` —
returns `(payload?, hit?)`. -/
def cacheRead {α : Type} (m : Cache α) (k : String) (now : ℤ) : Option α × Bool :=
  match cacheGet m k with
  | some e => if now - e.timestamp < ttlOf k then (some e.data, true) else (none, false)
  | none => (none, false)

/-- C1. A `get` immediately after a `put` of a key hits and returns the
stored payload; a `get` after more than the key's TTL has elapsed misses; the
hit condition is exactly "an entry exists and `now - storedAt < ttl(key)`";
the TTL is five minutes unless the key contains `stock-bars`, `spy-bars` or
`qqq-bars`, in which case it is seven days. -/
theorem cache_ttl_correct {α : Type} (m : Cache α) (key : String) (d : α)
    (now later : ℤ) :
    (cacheRead (cachePut m key d now) key now = (some d, true)) ∧
    (later - now > ttlOf key → cacheRead (cachePut m key d now) key later = (none, false)) ∧
    (∀ (m' : Cache α) (k : String) (t : ℤ),
      (cacheRead m' k t).2 = true ↔
        ∃ e, cacheGet m' k = some e ∧ t - e.timestamp < ttlOf k) ∧
    (isBarsKey key = true → ttlOf key = 7 * 24 * 60 * 60 * 1000) ∧
    (isBarsKey key = false → ttlOf key = 5 * 60 * 1000) := by
  have hput : cacheGet (cachePut m key d now) key = some ⟨d, now⟩ := by
    simpa [cacheGet, cachePut] using objGet_objSet m key key (⟨d, now⟩ : CEntry α)
  have httl : 0 < ttlOf key := by
    unfold ttlOf CACHE_DURATION_MS ALPACA_CACHE_DURATION_MS
    split <;> norm_num
  refine ⟨?_, ?_, ?_, ?_, ?_⟩
  · simp [cacheRead, hput]
    omega
  · intro hl
    simp [cacheRead, hput]
    omega
  · intro m' k t
    unfold cacheRead
    cases h : cacheGet m' k with
    | none => simp [h]
    | some e =>
      by_cases hc : t - e.timestamp < ttlOf k <;> simp [h, hc]
  · intro h; simp [ttlOf, h, CACHE_DURATION_MS]
  · intro h; simp [ttlOf, h, ALPACA_CACHE_DURATION_MS]

theorem cache_ttl_correct_witness :
    ((1000000 : ℤ) - 0 > ttlOf "alpaca-account") ∧ (isBarsKey "alpaca-account" = false) ∧
      cacheRead (cachePut ([] : Cache ℚ) "alpaca-account" 7 0) "alpaca-account" 0
        = (some 7, true) ∧
      cacheRead (cachePut ([] : Cache ℚ) "alpaca-account" 7 0) "alpaca-account" 1000000
        = (none, false) ∧
      ttlOf "alpaca-account" = 5 * 60 * 1000 := by
  have h := cache_ttl_correct ([] : Cache ℚ) "alpaca-account" 7 0 1000000
  refine ⟨by decide, by decide, h.1, h.2.1 (by decide), h.2.2.2.2 (by decide)⟩

/-! ## Position history reconstruction (`agentPerformanceHistory` replay) -/

/-- Field `log.action`: the two sides acted on by the replay (`'BUY'` / `'SELL'`). -/
inductive Side where
  | buy
  | sell
deriving DecidableEq, Repr

/-- A fill / trading-log record as consumed by the replay: symbol, share
quantity, side and execution timestamp (epoch ms). -/
structure Fill where
  symbol : String
  quantity : ℚ
  side : Side
  time : ℤ
deriving DecidableEq, Repr

/-- BUY adds the quantity, SELL subtracts it. -/
def signedQty (f : Fill) : ℚ :=
  match f.side with
  | .buy => f.quantity
  | .sell => -f.quantity

/-- One replay update:
`positionsAtPoint[symbol] = (positionsAtPoint[symbol] || 0) ± quantity`. -/
def applyFill (m : List (String × ℚ)) (f : Fill) : List (String × ℚ) :=
  objSet m f.symbol (((objGet m f.symbol).getD 0) + signedQty f)

/-- The guarded body of the `tradingLogs.forEach` loop: only fills with
`logTime <= pointTime` are applied. -/
def replayStep (t : ℤ) (m : List (String × ℚ)) (f : Fill) : List (String × ℚ) :=
  if f.time ≤ t then applyFill m f else m

/-- Object `positionsAtPoint` built for checkpoint time `t`: replay every fill whose
timestamp is `≤ t` over the empty object. -/
def positionsAtPoint (fills : List Fill) (t : ℤ) : List (String × ℚ) :=
  fills.foldl (replayStep t) []

/-- The entries actually emitted into the chart row: the
`if (quantity !== 0)` filter over `Object.entries(positionsAtPoint)`. -/
def snapshotAtPoint (fills : List Fill) (t : ℤ) : List (String × ℚ) :=
  (positionsAtPoint fills t).filter (fun e => decide (e.2 ≠ 0))

/-- Does fill `f` count towards symbol `sym` at checkpoint time `t`? -/
def relevant (sym : String) (t : ℤ) (f : Fill) : Bool :=
  decide (f.symbol = sym) && decide (f.time ≤ t)

/-- The signed running share count of `sym` over all fills with time `≤ t`. -/
def countAt (fills : List Fill) (sym : String) (t : ℤ) : ℚ :=
  ((fills.filter (relevant sym t)).map signedQty).sum

theorem countAt_cons_pos {sym : String} {t : ℤ} {f : Fill} (fs : List Fill)
    (h : relevant sym t f = true) :
    countAt (f :: fs) sym t = signedQty f + countAt fs sym t := by
  simp [countAt, List.filter_cons, h]

theorem countAt_cons_neg {sym : String} {t : ℤ} {f : Fill} (fs : List Fill)
    (h : relevant sym t f = false) :
    countAt (f :: fs) sym t = countAt fs sym t := by
  simp [countAt, List.filter_cons, h]

/-- What the replay fold leaves at key `sym`: the carried-in value (if any)
plus the signed count of the relevant fills; the key stays absent exactly when
it was absent and no relevant fill occurs. -/
theorem objGet_foldl_replay (fills : List Fill) (t : ℤ) (sym : String) :
    ∀ m : List (String × ℚ),
    objGet (fills.foldl (replayStep t) m) sym =
      if objGet m sym = none ∧ fills.filter (relevant sym t) = [] then none
      else some ((objGet m sym).getD 0 + countAt fills sym t) := by
  induction fills with
  | nil =>
    intro m
    cases h : objGet m sym with
    | none => simp [h, countAt]
    | some v => simp [h, countAt]
  | cons f fs ih =>
    intro m
    simp only [List.foldl_cons]
    by_cases ht : f.time ≤ t
    · by_cases hs : f.symbol = sym
      · have hrel : relevant sym t f = true := by simp [relevant, hs, ht]
        have hget : objGet (replayStep t m f) sym
            = some ((objGet m sym).getD 0 + signedQty f) := by
          simp only [replayStep, if_pos ht, applyFill]
          rw [objGet_objSet, if_pos hs, hs]
        rw [ih, hget]
        rw [if_neg (by simp)]
        rw [List.filter_cons_of_pos hrel]
        rw [if_neg (by simp)]
        rw [countAt_cons_pos fs hrel]
        simp only [Option.getD_some]
        congr 1
        ring
      · have hrel : relevant sym t f = false := by simp [relevant, hs]
        have hget : objGet (replayStep t m f) sym = objGet m sym := by
          simp only [replayStep, if_pos ht, applyFill]
          rw [objGet_objSet, if_neg hs]
        rw [ih, hget, List.filter_cons_of_neg (by simp [hrel]),
          countAt_cons_neg fs hrel]
    · have hrel : relevant sym t f = false := by simp [relevant, ht]
      have hget : replayStep t m f = m := by simp [replayStep, ht]
      rw [hget, ih, List.filter_cons_of_neg (by simp [hrel]),
        countAt_cons_neg fs hrel]

/-- Lookup in `positionsAtPoint`: absent iff no fill of the symbol has
happened by `t`, otherwise exactly the running signed count. -/
theorem objGet_positionsAtPoint (fills : List Fill) (sym : String) (t : ℤ) :
    objGet (positionsAtPoint fills t) sym =
      if fills.filter (relevant sym t) = [] then none
      else some (countAt fills sym t) := by
  unfold positionsAtPoint
  rw [objGet_foldl_replay]
  simp [objGet]

theorem positionsAtPoint_keys_nodup (fills : List Fill) (t : ℤ) :
    ((positionsAtPoint fills t).map Prod.fst).Nodup := by
  have h : ∀ m : List (String × ℚ), (m.map Prod.fst).Nodup →
      ((fills.foldl (replayStep t) m).map Prod.fst).Nodup := by
    induction fills with
    | nil => intro m hm; exact hm
    | cons f fs ih =>
      intro m hm
      simp only [List.foldl_cons]
      apply ih
      unfold replayStep
      split
      · exact objSet_keys_nodup m _ _ hm
      · exact hm
  exact h [] (by simp)

/-- C3. A symbol whose running signed count is exactly zero at a
checkpoint is absent from that checkpoint's emitted snapshot; for the fills
`[BUY 10 @ t1, SELL 10 @ t2]` every checkpoint at or after `t2` excludes the
symbol and every checkpoint in `[t1, t2)` contains it with count `10`. -/
theorem zero_count_omitted :
    (∀ (fills : List Fill) (sym : String) (t : ℤ),
      countAt fills sym t = 0 →
        sym ∉ (snapshotAtPoint fills t).map Prod.fst) ∧
    (∀ (sym : String) (t1 t2 t : ℤ),
      (t1 ≤ t2 → t2 ≤ t →
        sym ∉ (snapshotAtPoint
          [⟨sym, 10, .buy, t1⟩, ⟨sym, 10, .sell, t2⟩] t).map Prod.fst) ∧
      (t1 ≤ t → t < t2 →
        (sym, (10 : ℚ)) ∈ snapshotAtPoint
          [⟨sym, 10, .buy, t1⟩, ⟨sym, 10, .sell, t2⟩] t)) := by
  constructor
  · intro fills sym t h0 hmem
    obtain ⟨e, he, hfst⟩ := List.mem_map.mp hmem
    obtain ⟨hpos, hne⟩ := List.mem_filter.mp he
    obtain ⟨s, q⟩ := e
    cases hfst
    have hq : q ≠ 0 := by simpa using hne
    have hget : objGet (positionsAtPoint fills t) s = some q :=
      objGet_of_mem (positionsAtPoint_keys_nodup fills t) hpos
    rw [objGet_positionsAtPoint] at hget
    by_cases hnil : fills.filter (relevant s t) = []
    · simp [hnil] at hget
    · rw [if_neg hnil] at hget
      exact hq (by simpa [h0] using hget.symm)
  · intro sym t1 t2 t
    constructor
    · intro h12 h2t
      have h1t : t1 ≤ t := le_trans h12 h2t
      simp [snapshotAtPoint, positionsAtPoint, replayStep, applyFill,
        signedQty, objGet, objSet, h1t, h2t]
    · intro h1t ht2
      have h2t : ¬ t2 ≤ t := not_le.mpr ht2
      simp [snapshotAtPoint, positionsAtPoint, replayStep, applyFill,
        signedQty, objGet, objSet, h1t, h2t]

theorem zero_count_omitted_witness :
    ((0 : ℤ) ≤ 5 ∧ (5 : ℤ) ≤ 5 ∧ (0 : ℤ) ≤ 3 ∧ (3 : ℤ) < 5) ∧
    "AAPL" ∉ (snapshotAtPoint
      [⟨"AAPL", 10, .buy, 0⟩, ⟨"AAPL", 10, .sell, 5⟩] 5).map Prod.fst ∧
    ("AAPL", (10 : ℚ)) ∈ snapshotAtPoint
      [⟨"AAPL", 10, .buy, 0⟩, ⟨"AAPL", 10, .sell, 5⟩] 3 := by
  refine ⟨by norm_num, ?_, ?_⟩
  · exact (zero_count_omitted.2 "AAPL" 0 5 5).1 (by norm_num) (by norm_num)
  · exact (zero_count_omitted.2 "AAPL" 0 5 3).2 (by norm_num) (by norm_num)

/-- C8. A fill earlier than the first checkpoint still contributes to the
running count carried into that checkpoint: its signed quantity is added both
to `countAt` and to the value stored in `positionsAtPoint`. -/
theorem pre_window_fill_included (f : Fill) (rest : List Fill) (sym : String)
    (c0 : ℤ) (hsym : f.symbol = sym) (hf : f.time < c0) :
    countAt (f :: rest) sym c0 = signedQty f + countAt rest sym c0 ∧
    objGet (positionsAtPoint (f :: rest) c0) sym
      = some (signedQty f + countAt rest sym c0) := by
  have hrel : relevant sym c0 f = true := by
    simp [relevant, hsym, le_of_lt hf]
  refine ⟨countAt_cons_pos rest hrel, ?_⟩
  rw [objGet_positionsAtPoint, if_neg (by simp [List.filter_cons_of_pos hrel]),
    countAt_cons_pos rest hrel]

theorem pre_window_fill_included_witness :
    ((⟨"AAPL", 10, .buy, 0⟩ : Fill).symbol = "AAPL" ∧
      (⟨"AAPL", 10, .buy, 0⟩ : Fill).time < 5) ∧
    countAt [⟨"AAPL", 10, .buy, 0⟩] "AAPL" 5 = 10 ∧
    objGet (positionsAtPoint [⟨"AAPL", 10, .buy, 0⟩] 5) "AAPL"
      = some 10 := by
  have h := pre_window_fill_included ⟨"AAPL", 10, .buy, 0⟩ [] "AAPL" 5 rfl
    (by norm_num)
  refine ⟨⟨rfl, by norm_num⟩, ?_, ?_⟩
  · simpa [signedQty, countAt] using h.1
  · simpa [signedQty, countAt] using h.2

/-! ## C2: the rescanning replay versus the incremental cursor algorithm -/

/-- Timestamp order on fills. -/
def fillTimeLE (a b : Fill) : Prop := a.time ≤ b.time

instance : DecidableRel fillTimeLE := fun a b =>
  inferInstanceAs (Decidable (a.time ≤ b.time))

instance : IsTotal Fill fillTimeLE := ⟨fun a b => le_total a.time b.time⟩

instance : IsTrans Fill fillTimeLE := ⟨fun _ _ _ h h' => le_trans h h'⟩

/-- Ascending-by-timestamp sort of the fill list. -/
def sortFills (fills : List Fill) : List Fill :=
  List.insertionSort fillTimeLE fills

/-- The per-symbol share counts emitted by the source's
`portfolioHistory.map(...)`: one `positionsAtPoint` object per checkpoint,
each computed by rescanning the whole fill list. -/
def agentPerformanceHistory (fills : List Fill) (checkpoints : List ℤ) :
    List (List (String × ℚ)) :=
  checkpoints.map (positionsAtPoint fills)

/-- Modelled from the spec (refinement reference): the incremental
single-pass algorithm — carry the running per-symbol count forward from the
previous checkpoint and advance a cursor over the time-sorted fills, applying
only the fills newly passed at each checkpoint. -/
def reconstructCursorGo :
    List (String × ℚ) → List Fill → List ℤ → List (List (String × ℚ))
  | _, _, [] => []
  | m, fs, t :: ts =>
    let consumed := fs.takeWhile (fun f => decide (f.time ≤ t))
    let m' := consumed.foldl applyFill m
    m' :: reconstructCursorGo m' (fs.dropWhile (fun f => decide (f.time ≤ t))) ts

/-- Modelled from the spec (refinement reference): sort the fills ascending
by timestamp, then run the cursor over the ascending checkpoints. -/
def reconstructCursor (fills : List Fill) (checkpoints : List ℤ) :
    List (List (String × ℚ)) :=
  reconstructCursorGo [] (sortFills fills) checkpoints

theorem foldl_replay_eq_filter (t : ℤ) (l : List Fill) :
    ∀ m : List (String × ℚ),
      l.foldl (replayStep t) m
        = (l.filter (fun f => decide (f.time ≤ t))).foldl applyFill m := by
  induction l with
  | nil => intro m; rfl
  | cons f fs ih =>
    intro m
    by_cases ht : f.time ≤ t
    · simp [List.filter_cons, ht, replayStep, ih]
    · simp [List.filter_cons, ht, replayStep, ih]

theorem takeWhile_eq_filter_of_sorted {t : ℤ} {fs : List Fill}
    (h : fs.Pairwise fillTimeLE) :
    fs.takeWhile (fun f => decide (f.time ≤ t))
      = fs.filter (fun f => decide (f.time ≤ t)) := by
  induction fs with
  | nil => rfl
  | cons a l ih =>
    rcases List.pairwise_cons.mp h with ⟨ha, hl⟩
    by_cases hat : a.time ≤ t
    · simp [List.takeWhile_cons, List.filter_cons, hat, ih hl]
    · have hrest : ∀ f ∈ l, ¬ f.time ≤ t := fun f hf hle =>
        hat (le_trans (ha f hf) hle)
      have hfil : l.filter (fun f => decide (f.time ≤ t)) = [] :=
        List.filter_eq_nil_iff.mpr (by
          intro f hf
          simpa using hrest f hf)
      simp [List.takeWhile_cons, List.filter_cons, hat, hfil]

/-- Cursor invariant: with `gone` the fills already consumed (all of them no
later than every remaining checkpoint) and `fs` the sorted remainder, each
emitted state is exactly the rescanning `positionsAtPoint` of the full list. -/
theorem cursorGo_eq (ts : List ℤ) :
    ∀ (gone fs : List Fill),
      ts.Pairwise (· ≤ ·) →
      fs.Pairwise fillTimeLE →
      (∀ t ∈ ts, ∀ f ∈ gone, f.time ≤ t) →
      reconstructCursorGo (gone.foldl applyFill []) fs ts
        = ts.map (fun t => positionsAtPoint (gone ++ fs) t) := by
  induction ts with
  | nil => intro gone fs _ _ _; rfl
  | cons t ts ih =>
    intro gone fs hts hsort hgone
    rcases List.pairwise_cons.mp hts with ⟨hthead, htstail⟩
    have hconsumed : fs.takeWhile (fun f => decide (f.time ≤ t))
        = fs.filter (fun f => decide (f.time ≤ t)) :=
      takeWhile_eq_filter_of_sorted hsort
    have hgone_le : ∀ f ∈ gone, f.time ≤ t := hgone t (List.mem_cons_self t ts)
    have hgone_eq : gone.filter (fun f => decide (f.time ≤ t)) = gone :=
      List.filter_eq_self.mpr (by intro f hf; simpa using hgone_le f hf)
    have hm' : (fs.takeWhile (fun f => decide (f.time ≤ t))).foldl applyFill
          (gone.foldl applyFill [])
        = positionsAtPoint (gone ++ fs) t := by
      rw [hconsumed]
      unfold positionsAtPoint
      rw [foldl_replay_eq_filter, List.filter_append, hgone_eq,
        List.foldl_append]
    simp only [reconstructCursorGo, List.map_cons]
    refine congrArg₂ _ hm' ?_
    have hrec := ih (gone ++ fs.takeWhile (fun f => decide (f.time ≤ t)))
      (fs.dropWhile (fun f => decide (f.time ≤ t)))
      htstail
      (List.Pairwise.sublist (List.dropWhile_suffix _).sublist hsort)
      (by
        intro t' ht' f hf
        rcases List.mem_append.mp hf with hg | hc
        · exact hgone t' (List.mem_cons_of_mem t ht') f hg
        · have := List.mem_takeWhile_imp hc
          have hft : f.time ≤ t := by simpa using this
          exact le_trans hft (hthead t' ht'))
    rw [List.foldl_append] at hrec
    rw [hm'] at hrec
    rw [hm', hrec]
    congr 1
    rw [List.append_assoc, List.takeWhile_append_dropWhile]

/-- C2. For every fill list and ascending checkpoint list, the per-symbol
share counts the source computes per checkpoint (rescanning the full fill
list each time) coincide, symbol by symbol, with the result of the
incremental cursor algorithm over the time-sorted fills. -/
theorem reconstruct_cursor_equiv (fills : List Fill) (checkpoints : List ℤ)
    (hasc : checkpoints.Pairwise (· ≤ ·)) :
    List.Forall₂ (fun code cursor => ∀ sym : String,
        objGet code sym = objGet cursor sym)
      (agentPerformanceHistory fills checkpoints)
      (reconstructCursor fills checkpoints) := by
  have hperm : List.Perm (sortFills fills) fills :=
    List.perm_insertionSort fillTimeLE fills
  have hpoint : ∀ (t : ℤ) (sym : String),
      objGet (positionsAtPoint fills t) sym
        = objGet (positionsAtPoint (sortFills fills) t) sym := by
    intro t sym
    rw [objGet_positionsAtPoint, objGet_positionsAtPoint]
    have hfil : List.Perm ((sortFills fills).filter (relevant sym t))
        (fills.filter (relevant sym t)) := hperm.filter _
    have hsum : countAt (sortFills fills) sym t = countAt fills sym t := by
      unfold countAt
      exact (hfil.map signedQty).sum_eq
    have hnil : (fills.filter (relevant sym t) = []) ↔
        ((sortFills fills).filter (relevant sym t) = []) := by
      constructor
      · intro h
        have h' := hfil
        rw [h] at h'
        exact h'.eq_nil
      · intro h
        have h' := hfil.symm
        rw [h] at h'
        exact h'.eq_nil
    by_cases h : fills.filter (relevant sym t) = []
    · rw [if_pos h, if_pos (hnil.mp h)]
    · rw [if_neg h, if_neg (fun hc => h (hnil.mpr hc)), hsum]
  have hcursor : reconstructCursor fills checkpoints
      = checkpoints.map (fun t => positionsAtPoint (sortFills fills) t) := by
    have h := cursorGo_eq checkpoints [] (sortFills fills) hasc
      (List.sorted_insertionSort fillTimeLE fills) (by intro t _ f hf; simp at hf)
    simpa [reconstructCursor] using h
  rw [hcursor]
  unfold agentPerformanceHistory
  clear hcursor hasc
  induction checkpoints with
  | nil => exact List.Forall₂.nil
  | cons t ts ihc => exact List.Forall₂.cons (fun sym => hpoint t sym) ihc

theorem reconstruct_cursor_equiv_witness :
    ([(0 : ℤ), 2, 9] : List ℤ).Pairwise (· ≤ ·) ∧
    List.Forall₂ (fun code cursor => ∀ sym : String,
        objGet code sym = objGet cursor sym)
      (agentPerformanceHistory
        [⟨"TSLA", 4, .buy, 7⟩, ⟨"AAPL", 10, .buy, 1⟩, ⟨"AAPL", 3, .sell, 8⟩]
        [0, 2, 9])
      (reconstructCursor
        [⟨"TSLA", 4, .buy, 7⟩, ⟨"AAPL", 10, .buy, 1⟩, ⟨"AAPL", 3, .sell, 8⟩]
        [0, 2, 9]) := by
  refine ⟨by decide, reconstruct_cursor_equiv _ _ (by decide)⟩

/-! ## C7: hourly deduplication of portfolio-history samples
(`hourlyData` / `formattedHistory` in `StaticDashboard.tsx` and
`dashboard/page.tsx`) -/

/-- A raw portfolio-valuation sample `{ timestamp, value }` (epoch ms). -/
structure Sample where
  timestamp : ℤ
  value : ℚ
deriving DecidableEq, Repr

/-- Epoch-ms result of `date.setMinutes(0); setSeconds(0); setMilliseconds(0)`
for a clock in a timezone `off` milliseconds east of UTC. -/
def floorHour (off t : ℤ) : ℤ := t - (t + off) % 3600000

/-- Test `new Date(t).getMinutes() === 0` for the same clock. -/
def topOfHour (off t : ℤ) : Bool := decide ((t + off) % 3600000 / 60000 = 0)

/-- First-some choice of two options (`a ?? b` on option values). -/
def optOr {α : Type} : Option α → Option α → Option α
  | some a, _ => some a
  | none, b => b

theorem optOr_none {α : Type} (b : Option α) : optOr none b = b := rfl

theorem optOr_some {α : Type} (a : α) (b : Option α) :
    optOr (some a) b = some a := rfl

theorem optOr_assoc {α : Type} (a b c : Option α) :
    optOr (optOr a b) c = optOr a (optOr b c) := by
  cases a <;> cases b <;> rfl

theorem getLast?_eq_optOr {α : Type} (l : List α) (a : α) :
    (a :: l).getLast? = optOr l.getLast? (some a) := by
  induction l generalizing a with
  | nil => rfl
  | cons b bs ih =>
    rw [List.getLast?_cons_cons, ih b]
    cases h : bs.getLast? <;> simp [optOr]

/-- Lookup `objGet` inverted: a successful lookup comes from an actual entry. -/
theorem mem_of_objGet {κ ν : Type} [DecidableEq κ]
    {m : List (κ × ν)} {k : κ} {v : ν} (h : objGet m k = some v) : (k, v) ∈ m := by
  induction m with
  | nil => simp [objGet] at h
  | cons hd tl ih =>
    obtain ⟨k₀, v₀⟩ := hd
    by_cases hk : k₀ = k
    · subst hk
      simp [objGet] at h
      simp [h]
    · simp [objGet, hk] at h
      exact List.mem_cons_of_mem _ (ih h)

theorem mem_objSet_sub {κ ν : Type} [DecidableEq κ]
    (m : List (κ × ν)) (k : κ) (v : ν) :
    ∀ e ∈ objSet m k v, e = (k, v) ∨ e ∈ m := by
  induction m with
  | nil => simp [objSet]
  | cons hd tl ih =>
    obtain ⟨k₀, v₀⟩ := hd
    intro e he
    by_cases hk : k₀ = k
    · subst hk
      simp only [objSet, eq_self_iff_true, if_true] at he
      rcases List.mem_cons.mp he with h | h
      · exact Or.inl h
      · exact Or.inr (List.mem_cons_of_mem _ h)
    · simp only [objSet, if_neg hk] at he
      rcases List.mem_cons.mp he with h | h
      · exact Or.inr (by simp [h])
      · rcases ih e h with h' | h'
        · exact Or.inl h'
        · exact Or.inr (List.mem_cons_of_mem _ h')

/-- One step of the `filteredHistory.forEach` loop:
`if (!hourlyData[hourKey] || minutes === 0) hourlyData[hourKey] = item`. -/
def hourlyUpd (off : ℤ) (m : List (ℤ × Sample)) (item : Sample) :
    List (ℤ × Sample) :=
  match objGet m (floorHour off item.timestamp) with
  | none => objSet m (floorHour off item.timestamp) item
  | some _ =>
    if topOfHour off item.timestamp then
      objSet m (floorHour off item.timestamp) item
    else m

theorem hourlyUpd_eq (off : ℤ) (m : List (ℤ × Sample)) (item : Sample) :
    hourlyUpd off m item =
      if objGet m (floorHour off item.timestamp) = none
          ∨ topOfHour off item.timestamp = true
      then objSet m (floorHour off item.timestamp) item
      else m := by
  unfold hourlyUpd
  cases hc : objGet m (floorHour off item.timestamp) with
  | none => simp [hc]
  | some v =>
    by_cases ht : topOfHour off item.timestamp = true <;> simp [hc, ht]

theorem objGet_hourlyUpd_self (off : ℤ) (m : List (ℤ × Sample)) (s : Sample)
    (h : ℤ) (hfloor : floorHour off s.timestamp = h) :
    objGet (hourlyUpd off m s) h =
      if objGet m h = none ∨ topOfHour off s.timestamp = true then some s
      else objGet m h := by
  rw [hourlyUpd_eq, hfloor]
  split
  · rw [objGet_objSet, if_pos rfl]
  · rfl

theorem objGet_hourlyUpd_other (off : ℤ) (m : List (ℤ × Sample)) (s : Sample)
    (h : ℤ) (hfloor : floorHour off s.timestamp ≠ h) :
    objGet (hourlyUpd off m s) h = objGet m h := by
  rw [hourlyUpd_eq]
  split
  · rw [objGet_objSet, if_neg hfloor]
  · rfl

/-- The `hourlyData` object after processing all samples in order. -/
def hourlyData (off : ℤ) (samples : List Sample) : List (ℤ × Sample) :=
  samples.foldl (hourlyUpd off) []

/-- Timestamp order on samples (the `(a, b) => a.timestamp - b.timestamp`
comparator). -/
def sampleLE (a b : Sample) : Prop := a.timestamp ≤ b.timestamp

instance : DecidableRel sampleLE := fun a b =>
  inferInstanceAs (Decidable (a.timestamp ≤ b.timestamp))

instance : IsTotal Sample sampleLE := ⟨fun a b => le_total a.timestamp b.timestamp⟩

instance : IsTrans Sample sampleLE := ⟨fun _ _ _ h h' => le_trans h h'⟩

/-- Series `Object.values(hourlyData)` sorted by the timestamp comparator. -/
def formattedHistory (off : ℤ) (samples : List Sample) : List Sample :=
  List.insertionSort sampleLE ((hourlyData off samples).map Prod.snd)

/-- Is the sample in the clock hour beginning at `h`? -/
def inHour (off h : ℤ) (s : Sample) : Bool :=
  decide (floorHour off s.timestamp = h)

/-- What the `forEach` fold keeps for the hour `h`: the last top-of-hour
sample of that hour if one exists, else the carried-in entry, else the first
sample of that hour. -/
theorem objGet_hourlyFold (off h : ℤ) (samples : List Sample) :
    ∀ m : List (ℤ × Sample),
    objGet (samples.foldl (hourlyUpd off) m) h =
      optOr (((samples.filter (inHour off h)).filter
          (fun s => topOfHour off s.timestamp)).getLast?)
        (optOr (objGet m h) ((samples.filter (inHour off h)).head?)) := by
  induction samples with
  | nil =>
    intro m
    cases h' : objGet m h <;> simp [h', optOr]
  | cons s ss ih =>
    intro m
    simp only [List.foldl_cons]
    rw [ih]
    by_cases hin : inHour off h s = true
    · have hfloor : floorHour off s.timestamp = h := by simpa [inHour] using hin
      rw [List.filter_cons_of_pos hin]
      by_cases htop : topOfHour off s.timestamp = true
      · rw [objGet_hourlyUpd_self off m s h hfloor, if_pos (Or.inr htop)]
        have hT : (s :: ss.filter (inHour off h)).filter
            (fun s => topOfHour off s.timestamp)
            = s :: (ss.filter (inHour off h)).filter
                (fun s => topOfHour off s.timestamp) := by
          simp [List.filter_cons, htop]
        rw [hT, getLast?_eq_optOr, optOr_assoc]
        cases hl : ((ss.filter (inHour off h)).filter
            (fun s => topOfHour off s.timestamp)).getLast? <;> simp [optOr]
      · have htop' : topOfHour off s.timestamp = false := by simpa using htop
        have hT : (s :: ss.filter (inHour off h)).filter
            (fun s => topOfHour off s.timestamp)
            = (ss.filter (inHour off h)).filter
                (fun s => topOfHour off s.timestamp) := by
          simp [List.filter_cons, htop']
        rw [hT, objGet_hourlyUpd_self off m s h hfloor]
        cases hc : objGet m h with
        | none =>
          rw [if_pos (Or.inl rfl)]
          cases hl : ((ss.filter (inHour off h)).filter
              (fun s => topOfHour off s.timestamp)).getLast? <;> simp [optOr]
        | some v =>
          rw [if_neg (by simp [htop'])]
          cases hl : ((ss.filter (inHour off h)).filter
              (fun s => topOfHour off s.timestamp)).getLast? <;> simp [optOr]
    · have hfloor : floorHour off s.timestamp ≠ h := by
        intro hf
        exact hin (by simp [inHour, hf])
      rw [objGet_hourlyUpd_other off m s h hfloor,
        List.filter_cons_of_neg (by simp [hin])]

theorem hourly_fold_entries (off : ℤ) :
    ∀ (ss : List Sample) (m : List (ℤ × Sample)),
    ∀ e ∈ ss.foldl (hourlyUpd off) m,
      e ∈ m ∨ (e.1 = floorHour off e.2.timestamp ∧ e.2 ∈ ss) := by
  intro ss
  induction ss with
  | nil => intro m e he; exact Or.inl he
  | cons s ts ih =>
    intro m e he
    rcases ih (hourlyUpd off m s) e he with h | h
    · rw [hourlyUpd_eq] at h
      split at h
      · rcases mem_objSet_sub m _ s e h with h' | h'
        · subst h'
          exact Or.inr ⟨rfl, List.mem_cons_self s ts⟩
        · exact Or.inl h'
      · exact Or.inl h
    · exact Or.inr ⟨h.1, List.mem_cons_of_mem s h.2⟩

theorem hourly_fold_keys_nodup (off : ℤ) :
    ∀ (ss : List Sample) (m : List (ℤ × Sample)),
    (m.map Prod.fst).Nodup → ((ss.foldl (hourlyUpd off) m).map Prod.fst).Nodup := by
  intro ss
  induction ss with
  | nil => intro m hm; exact hm
  | cons s ts ih =>
    intro m hm
    apply ih
    rw [hourlyUpd_eq]
    split
    · exact objSet_keys_nodup _ _ _ hm
    · exact hm

/-- C7. The produced checkpoint series has at most one entry per clock
hour, is sorted ascending by timestamp, and for each hour present the kept
sample is a minutes-zero sample if the hour has one, and otherwise the first
sample encountered for that hour. -/
theorem hourly_dedup (off : ℤ) (samples : List Sample) :
    ((formattedHistory off samples).Pairwise (fun a b =>
        floorHour off a.timestamp ≠ floorHour off b.timestamp)) ∧
    ((formattedHistory off samples).Sorted sampleLE) ∧
    (∀ h : ℤ,
      ((∃ s ∈ samples, floorHour off s.timestamp = h ∧
          topOfHour off s.timestamp = true) →
        ∃ e ∈ formattedHistory off samples,
          floorHour off e.timestamp = h ∧ topOfHour off e.timestamp = true) ∧
      ((samples.filter (inHour off h)) ≠ [] →
        (∀ s ∈ samples, floorHour off s.timestamp = h →
          topOfHour off s.timestamp = false) →
        ∃ e, (samples.filter (inHour off h)).head? = some e ∧
          objGet (hourlyData off samples) h = some e ∧
          e ∈ formattedHistory off samples)) := by
  have hperm : List.Perm (formattedHistory off samples)
      ((hourlyData off samples).map Prod.snd) :=
    List.perm_insertionSort sampleLE _
  have hmem_formatted : ∀ {h : ℤ} {e : Sample},
      objGet (hourlyData off samples) h = some e →
      e ∈ formattedHistory off samples := by
    intro h e hget
    exact hperm.mem_iff.mpr (List.mem_map_of_mem Prod.snd (mem_of_objGet hget))
  have hchar : ∀ h : ℤ, objGet (hourlyData off samples) h =
      optOr (((samples.filter (inHour off h)).filter
          (fun s => topOfHour off s.timestamp)).getLast?)
        ((samples.filter (inHour off h)).head?) := by
    intro h
    have := objGet_hourlyFold off h samples []
    simpa [objGet, optOr] using this
  refine ⟨?_, ?_, ?_⟩
  · have hnd := hourly_fold_keys_nodup off samples [] (by simp)
    have hents := hourly_fold_entries off samples []
    have hpw : (hourlyData off samples).Pairwise
        (fun e1 e2 => floorHour off e1.2.timestamp ≠ floorHour off e2.2.timestamp) := by
      have h1 : (hourlyData off samples).Pairwise (fun e1 e2 => e1.1 ≠ e2.1) :=
        List.pairwise_map.mp hnd
      refine h1.imp_of_mem ?_
      intro e1 e2 h1m h2m hne
      rcases hents e1 h1m with h1' | h1'
      · simp at h1'
      rcases hents e2 h2m with h2' | h2'
      · simp at h2'
      rw [h1'.1, h2'.1] at hne
      exact hne
    have h2 : ((hourlyData off samples).map Prod.snd).Pairwise
        (fun a b => floorHour off a.timestamp ≠ floorHour off b.timestamp) :=
      List.pairwise_map.mpr hpw
    exact (List.Perm.pairwise_iff (fun hxy => hxy.symm) hperm).mpr h2
  · exact List.sorted_insertionSort sampleLE _
  · intro h
    constructor
    · rintro ⟨s, hsmem, hsfloor, hstop⟩
      have hs1 : s ∈ samples.filter (inHour off h) :=
        List.mem_filter.mpr ⟨hsmem, by simp [inHour, hsfloor]⟩
      have hs2 : s ∈ (samples.filter (inHour off h)).filter
          (fun s => topOfHour off s.timestamp) :=
        List.mem_filter.mpr ⟨hs1, hstop⟩
      cases hl : ((samples.filter (inHour off h)).filter
          (fun s => topOfHour off s.timestamp)).getLast? with
      | none =>
        rw [List.getLast?_eq_none_iff] at hl
        rw [hl] at hs2
        simp at hs2
      | some e =>
        have hemem := List.mem_of_getLast?_eq_some hl
        have he1 : e ∈ samples.filter (inHour off h) :=
          (List.mem_filter.mp hemem).1
        have hetop : topOfHour off e.timestamp = true :=
          (List.mem_filter.mp hemem).2
        have hefloor : floorHour off e.timestamp = h := by
          have := (List.mem_filter.mp he1).2
          simpa [inHour] using this
        have hget : objGet (hourlyData off samples) h = some e := by
          rw [hchar h, hl, optOr_some]
        exact ⟨e, hmem_formatted hget, hefloor, hetop⟩
    · intro hne hnotop
      have htops : (samples.filter (inHour off h)).filter
          (fun s => topOfHour off s.timestamp) = [] := by
        refine List.filter_eq_nil_iff.mpr ?_
        intro s hs
        have hsmem := (List.mem_filter.mp hs).1
        have hsfloor : floorHour off s.timestamp = h := by
          have := (List.mem_filter.mp hs).2
          simpa [inHour] using this
        simp [hnotop s hsmem hsfloor]
      cases hh : (samples.filter (inHour off h)).head? with
      | none =>
        rw [List.head?_eq_none_iff] at hh
        exact absurd hh hne
      | some e =>
        have hget : objGet (hourlyData off samples) h = some e := by
          rw [hchar h, htops]
          simpa [optOr] using hh
        exact ⟨e, rfl, hget, hmem_formatted hget⟩

theorem hourly_dedup_witness :
    (∃ s ∈ [(⟨4800000, 100⟩ : Sample), ⟨3600000, 101⟩],
      floorHour 0 s.timestamp = 3600000 ∧ topOfHour 0 s.timestamp = true) ∧
    ∃ e ∈ formattedHistory 0 [(⟨4800000, 100⟩ : Sample), ⟨3600000, 101⟩],
      floorHour 0 e.timestamp = 3600000 ∧ topOfHour 0 e.timestamp = true := by
  refine ⟨by decide, ?_⟩
  exact ((hourly_dedup 0 [⟨4800000, 100⟩, ⟨3600000, 101⟩]).2.2 3600000).1
    (by decide)

/-! ## C4: the synthetic fallback bar generator

The generator's transcendental oscillation `Math.sin(t * Math.PI * 4)` is
embedded as an abstract parameter `osc : ℚ → ℚ` constrained in the theorems
by what the sine satisfies (`|osc t| ≤ 1`, and `osc 1 = 0` because
`sin 4π = 0`); `Math.random()` is a parameter `rand : ℕ → ℚ` giving the draw
of each loop iteration, constrained to `[0, 1)`.  `parseFloat(x.toFixed(2))`
is rounding to a cent. -/

/-- Rounding `parseFloat(x.toFixed(2))`: round to the nearest hundredth. -/
def round2 (x : ℚ) : ℚ := (⌊x * 100 + 1 / 2⌋ : ℚ) / 100

/-- One generated bar `{ t, c }` (timestamp epoch ms, close). -/
structure SynBar where
  t : ℤ
  c : ℚ
deriving DecidableEq, Repr

/-- Hour count `Math.max(1, Math.floor((sellTime - buyTime) / 3600000))`. -/
def synHours (buyTime sellTime : ℤ) : ℤ :=
  max 1 ((sellTime - buyTime) / 3600000)

/-- The linear trend: `buyPrice + priceChange * (i / hours)`. -/
def trendAt (buyPrice sellPrice : ℚ) (hours : ℤ) (i : ℕ) : ℚ :=
  buyPrice + (sellPrice - buyPrice) * ((i : ℚ) / (hours : ℚ))

/-- The `for (i = 0; i <= hours; i++)` loop of the synthetic generator:
trend plus oscillation plus noise, rounded to cents (the source's local
`trend` / `oscillation` / `noise` bindings are inlined). -/
def syntheticBars (osc : ℚ → ℚ) (rand : ℕ → ℚ) (buyPrice : ℚ) (buyTime : ℤ)
    (sellPrice : ℚ) (sellTime : ℤ) : List SynBar :=
  (List.range ((synHours buyTime sellTime).toNat + 1)).map fun i : ℕ =>
    ⟨buyTime + (i : ℤ) * 3600000,
      round2 (trendAt buyPrice sellPrice (synHours buyTime sellTime) i
        + (buyPrice * (3 / 100))
            * osc ((i : ℚ) / ((synHours buyTime sellTime : ℤ) : ℚ))
        + (rand i - 1 / 2) * (buyPrice * (1 / 100)))⟩

/-- The no-SELL case: terminal price defaults to `buyPrice * 1.05` at the
current time. -/
def syntheticBarsNoSell (osc : ℚ → ℚ) (rand : ℕ → ℚ) (buyPrice : ℚ)
    (buyTime now : ℤ) : List SynBar :=
  syntheticBars osc rand buyPrice buyTime (buyPrice * (105 / 100)) now

theorem abs_round2_sub_le (x : ℚ) : |round2 x - x| ≤ 1 / 200 := by
  unfold round2
  have h1 : (⌊x * 100 + 1 / 2⌋ : ℚ) ≤ x * 100 + 1 / 2 := Int.floor_le _
  have h2 : x * 100 + 1 / 2 - 1 < (⌊x * 100 + 1 / 2⌋ : ℚ) :=
    Int.sub_one_lt_floor _
  rw [abs_le]
  constructor <;> nlinarith

/-- The run of the oscillation source sampled by the counterexample: the
constant-zero function, which agrees with `t ↦ sin (4 π t)` at both points
`t = 0` and `t = 1` that the one-hour run evaluates. -/
def oscZero : ℚ → ℚ := fun _ => 0

/-- A run of the random source drawing `0` at every iteration. -/
def randZero : ℕ → ℚ := fun _ => 0

theorem synthetic_point_bound (osc : ℚ → ℚ) (rand : ℕ → ℚ) (P : ℚ)
    (buyTime now : ℤ) (hP : 0 < P) (hosc : ∀ t, |osc t| ≤ 1)
    (hrand : ∀ i, 0 ≤ rand i ∧ rand i < 1) (i : ℕ) :
    |round2 (trendAt P (P * (105 / 100)) (synHours buyTime now) i
          + (P * (3 / 100)) * osc ((i : ℚ) / ((synHours buyTime now : ℤ) : ℚ))
          + (rand i - 1 / 2) * (P * (1 / 100)))
        - trendAt P (P * (105 / 100)) (synHours buyTime now) i|
      ≤ P * (7 / 200) + 1 / 200 := by
  have hnoise : |rand i - 1 / 2| ≤ 1 / 2 := by
    rcases hrand i with ⟨h0, h1⟩
    rw [abs_le]
    constructor <;> linarith
  set T := trendAt P (P * (105 / 100)) (synHours buyTime now) i with hT
  set A := (P * (3 / 100)) * osc ((i : ℚ) / ((synHours buyTime now : ℤ) : ℚ))
    with hA
  set B := (rand i - 1 / 2) * (P * (1 / 100)) with hB
  have h1 : |A| ≤ P * (3 / 100) := by
    rw [hA, abs_mul, abs_of_pos (show (0 : ℚ) < P * (3 / 100) by positivity)]
    have ho := hosc ((i : ℚ) / ((synHours buyTime now : ℤ) : ℚ))
    nlinarith [abs_nonneg (osc ((i : ℚ) / ((synHours buyTime now : ℤ) : ℚ)))]
  have h2 : |B| ≤ P * (1 / 200) := by
    rw [hB, abs_mul, abs_of_pos (show (0 : ℚ) < P * (1 / 100) by positivity)]
    nlinarith [abs_nonneg (rand i - 1 / 2)]
  have hr := abs_round2_sub_le (T + A + B)
  have hdev : |T + A + B - T| ≤ P * (7 / 200) := by
    have he : T + A + B - T = A + B := by ring
    rw [he]
    calc |A + B| ≤ |A| + |B| := abs_add _ _
      _ ≤ P * (3 / 100) + P * (1 / 200) := add_le_add h1 h2
      _ = P * (7 / 200) := by ring
  calc |round2 (T + A + B) - T|
      = |(round2 (T + A + B) - (T + A + B)) + (T + A + B - T)| := by
        congr 1
        ring
    _ ≤ |round2 (T + A + B) - (T + A + B)| + |T + A + B - T| := abs_add _ _
    _ ≤ 1 / 200 + P * (7 / 200) := add_le_add hr hdev
    _ = P * (7 / 200) + 1 / 200 := by ring

/-- C4, amended. For a symbol whose only fill is a BUY at price `P > 0`,
every generated point lies within trend ± `(0.03·P + 0.005·P + half a cent)`
of the linear trend line, and the terminal price equals the cent-rounding of
`1.05·P` plus a noise term of magnitude at most `0.005·P` — so it lies within
`1.05·P ± (0.005·P + half a cent)` but need not equal `1.05·P` exactly. -/
theorem synthetic_bounds (osc : ℚ → ℚ) (rand : ℕ → ℚ) (P : ℚ) (buyTime now : ℤ)
    (hP : 0 < P) (hosc : ∀ t, |osc t| ≤ 1) (hosc1 : osc 1 = 0)
    (hrand : ∀ i, 0 ≤ rand i ∧ rand i < 1) :
    (syntheticBarsNoSell osc rand P buyTime now ≠ []) ∧
    (∀ e, (syntheticBarsNoSell osc rand P buyTime now).getLast? = some e →
      |e.c - P * (105 / 100)| ≤ P * (1 / 200) + 1 / 200) ∧
    (∀ (i : ℕ) (b : SynBar),
      (syntheticBarsNoSell osc rand P buyTime now)[i]? = some b →
      |b.c - trendAt P (P * (105 / 100)) (synHours buyTime now) i|
        ≤ P * (7 / 200) + 1 / 200) := by
  have hhours : (1 : ℤ) ≤ synHours buyTime now := le_max_left _ _
  have hpos : (0 : ℚ) < ((synHours buyTime now : ℤ) : ℚ) := by
    exact_mod_cast lt_of_lt_of_le zero_lt_one (by exact_mod_cast hhours)
  have hone : (((synHours buyTime now).toNat : ℕ) : ℚ)
      / ((synHours buyTime now : ℤ) : ℚ) = 1 := by
    have hcast : ((((synHours buyTime now).toNat : ℕ) : ℚ))
        = ((synHours buyTime now : ℤ) : ℚ) := by
      have h := Int.toNat_of_nonneg (le_trans zero_le_one hhours)
      exact_mod_cast congrArg (fun z : ℤ => (z : ℚ)) h
    rw [hcast]
    exact div_self (ne_of_gt hpos)
  refine ⟨?_, ?_, ?_⟩
  · unfold syntheticBarsNoSell syntheticBars
    intro hc
    have hlen := congrArg List.length hc
    simp at hlen
  · intro e he
    have hlast : (syntheticBarsNoSell osc rand P buyTime now).getLast?
        = some ⟨buyTime + (((synHours buyTime now).toNat : ℕ) : ℤ) * 3600000,
            round2 (trendAt P (P * (105 / 100)) (synHours buyTime now)
                (synHours buyTime now).toNat
              + (P * (3 / 100)) * osc ((((synHours buyTime now).toNat : ℕ) : ℚ)
                  / ((synHours buyTime now : ℤ) : ℚ))
              + (rand (synHours buyTime now).toNat - 1 / 2) * (P * (1 / 100)))⟩ := by
      unfold syntheticBarsNoSell syntheticBars
      rw [List.range_succ, List.map_append, List.map_cons, List.map_nil,
        List.getLast?_concat]
    rw [hlast] at he
    injection he with he'
    subst he'
    simp only
    have htrend : trendAt P (P * (105 / 100)) (synHours buyTime now)
        (synHours buyTime now).toNat = P * (105 / 100) := by
      unfold trendAt
      rw [hone]
      ring
    rw [htrend, hone, hosc1]
    have hx : P * (105 / 100) + P * (3 / 100) * 0
        + (rand (synHours buyTime now).toNat - 1 / 2) * (P * (1 / 100))
        = P * (105 / 100)
          + (rand (synHours buyTime now).toNat - 1 / 2) * (P * (1 / 100)) := by
      ring
    rw [hx]
    set y := P * (105 / 100)
        + (rand (synHours buyTime now).toNat - 1 / 2) * (P * (1 / 100)) with hy
    have hr := abs_round2_sub_le y
    have hnoise : |rand (synHours buyTime now).toNat - 1 / 2| ≤ 1 / 2 := by
      rcases hrand (synHours buyTime now).toNat with ⟨h0, h1⟩
      rw [abs_le]
      constructor <;> linarith
    have h2 : |y - P * (105 / 100)| ≤ P * (1 / 200) := by
      have he2 : y - P * (105 / 100)
          = (rand (synHours buyTime now).toNat - 1 / 2) * (P * (1 / 100)) := by
        rw [hy]
        ring
      rw [he2, abs_mul, abs_of_pos (show (0 : ℚ) < P * (1 / 100) by positivity)]
      nlinarith [abs_nonneg (rand (synHours buyTime now).toNat - 1 / 2)]
    calc |round2 y - P * (105 / 100)|
        = |(round2 y - y) + (y - P * (105 / 100))| := by
          congr 1
          ring
      _ ≤ |round2 y - y| + |y - P * (105 / 100)| := abs_add _ _
      _ ≤ 1 / 200 + P * (1 / 200) := add_le_add hr h2
      _ = P * (1 / 200) + 1 / 200 := by ring
  · intro i b hb
    unfold syntheticBarsNoSell syntheticBars at hb
    rw [List.getElem?_map] at hb
    by_cases hi : i < (synHours buyTime now).toNat + 1
    · rw [List.getElem?_range hi] at hb
      simp only [Option.map_some'] at hb
      injection hb with hb'
      subst hb'
      exact synthetic_point_bound osc rand P buyTime now hP hosc hrand i
    · rw [List.getElem?_eq_none (by simpa using Nat.le_of_not_lt hi)] at hb
      simp at hb

theorem synthetic_bounds_witness :
    ((0 : ℚ) < 100 ∧ oscZero 1 = 0 ∧ (∀ t, |oscZero t| ≤ 1) ∧
      (∀ i, 0 ≤ randZero i ∧ randZero i < 1)) ∧
    (syntheticBarsNoSell oscZero randZero 100 0 3600000 ≠ []) ∧
    (∀ e, (syntheticBarsNoSell oscZero randZero 100 0 3600000).getLast? = some e →
      |e.c - 100 * (105 / 100)| ≤ 100 * (1 / 200) + 1 / 200) := by
  have h := synthetic_bounds oscZero randZero 100 0 3600000 (by norm_num)
    (fun t => by simp [oscZero]) rfl
    (fun i => by constructor <;> norm_num [randZero])
  exact ⟨⟨by norm_num, rfl, fun t => by simp [oscZero],
    fun i => by constructor <;> norm_num [randZero]⟩, h.1, h.2.1⟩

/-- C4, counterexample. In the one-hour no-SELL run at `P = 100` with a
zero random draw (and the sine evaluated at its sampled points `t = 0, 1`,
where it vanishes), the terminal generated price is `104.5`, not
`1.05 · P = 105`: the noise term shifts the terminal point. -/
theorem synthetic_terminal_not_exact :
    (syntheticBarsNoSell oscZero randZero 100 0 3600000).getLast?
        = some ⟨3600000, 209 / 2⟩ ∧
    ((209 : ℚ) / 2) ≠ 100 * (105 / 100) := by
  constructor
  · have h1 : synHours 0 3600000 = 1 := by decide
    unfold syntheticBarsNoSell syntheticBars
    rw [h1]
    have h2 : ((1 : ℤ).toNat + 1) = 2 := by decide
    rw [h2, show List.range 2 = [0, 1] from rfl]
    simp only [List.map_cons, List.map_nil, List.getLast?_cons_cons,
      List.getLast?_singleton]
    norm_num [round2, trendAt, oscZero, randZero]
  · norm_num

/-! ## C6: upstream numeric fields (`parseFloat` without guards) -/

/-- Value of a list of decimal digit characters. -/
def digitsVal (cs : List Char) : ℕ :=
  cs.foldl (fun acc c => acc * 10 + (c.toNat - '0'.toNat)) 0

/-- Value of a fraction-part digit list. -/
def fracVal (cs : List Char) : ℚ :=
  (digitsVal cs : ℚ) / (10 : ℚ) ^ cs.length

/-- Exponent suffix of a JS float literal (`e` / `E` already consumed):
optional sign then digits; with no digits the exponent is ignored. -/
def applyExpo (mantissa : ℚ) (r : List Char) : ℚ :=
  match r with
  | '-' :: rr =>
    let ds := rr.takeWhile Char.isDigit
    if ds.isEmpty then mantissa else mantissa * (10 : ℚ) ^ (-(digitsVal ds : ℤ))
  | '+' :: rr =>
    let ds := rr.takeWhile Char.isDigit
    if ds.isEmpty then mantissa else mantissa * (10 : ℚ) ^ (digitsVal ds : ℤ)
  | _ =>
    let ds := r.takeWhile Char.isDigit
    if ds.isEmpty then mantissa else mantissa * (10 : ℚ) ^ (digitsVal ds : ℤ)

/-- JS `parseFloat` over the finite-number fragment: skip leading whitespace,
optional sign, integer digits, optional `.` fraction digits, optional
exponent; parsing stops at the first character that cannot extend the number;
`none` stands for `NaN` (no digits found at all). -/
def jsParseFloat (s : String) : Option ℚ :=
  let cs := s.data.dropWhile Char.isWhitespace
  let signNeg : Bool := decide (cs.head? = some '-')
  let cs1 : List Char :=
    if cs.head? = some '-' ∨ cs.head? = some '+' then cs.tail else cs
  let intDigits := cs1.takeWhile Char.isDigit
  let cs2 := cs1.dropWhile Char.isDigit
  let fracDigits : List Char :=
    if cs2.head? = some '.' then cs2.tail.takeWhile Char.isDigit else []
  let cs3 : List Char :=
    if cs2.head? = some '.' then cs2.tail.dropWhile Char.isDigit else cs2
  if intDigits.isEmpty ∧ fracDigits.isEmpty then none
  else
    let mag : ℚ := (digitsVal intDigits : ℚ) + fracVal fracDigits
    let mantissa : ℚ := if signNeg then -mag else mag
    match cs3 with
    | 'e' :: r => some (applyExpo mantissa r)
    | 'E' :: r => some (applyExpo mantissa r)
    | _ => some mantissa

/-- A raw position record of the brokerage response (`/v2/positions`): every
numeric field arrives as a string. -/
structure RawPosition where
  asset_id : String
  symbol : String
  qty : String
  side : String
  market_value : String
  cost_basis : String
  avg_entry_price : String
  unrealized_pl : String
  unrealized_plpc : String
  current_price : String
deriving DecidableEq, Repr

/-- A mapped position of the route's response payload (`parseFloat` applied
to each numeric field; `none` is `NaN`). -/
structure PositionOut where
  asset_id : String
  symbol : String
  qty : Option ℚ
  side : String
  market_value : Option ℚ
  cost_basis : Option ℚ
  avg_entry_price : Option ℚ
  unrealized_pl : Option ℚ
  unrealized_plpc : Option ℚ
  current_price : Option ℚ
deriving DecidableEq, Repr

/-- The element mapping of `positions.map(pos => ({...}))`. -/
def mapPosition (p : RawPosition) : PositionOut where
  asset_id := p.asset_id
  symbol := p.symbol
  qty := jsParseFloat p.qty
  side := p.side
  market_value := jsParseFloat p.market_value
  cost_basis := jsParseFloat p.cost_basis
  avg_entry_price := jsParseFloat p.avg_entry_price
  unrealized_pl := jsParseFloat p.unrealized_pl
  unrealized_plpc := jsParseFloat p.unrealized_plpc
  current_price := jsParseFloat p.current_price

/-- Mapping `positions.map(...)`: one output record per input record, no guard, no
skipping. -/
def processPositions (ps : List RawPosition) : List PositionOut :=
  ps.map mapPosition

/-- A well-formed raw position. -/
def rawPosOK : RawPosition where
  asset_id := "a1"
  symbol := "AAPL"
  qty := "10"
  side := "long"
  market_value := "1000"
  cost_basis := "900"
  avg_entry_price := "90"
  unrealized_pl := "100"
  unrealized_plpc := "0.11"
  current_price := "100"

/-- A raw position whose `qty` field is unparseable. -/
def rawPosBad : RawPosition where
  asset_id := "a2"
  symbol := "CLSK"
  qty := "not-a-number"
  side := "long"
  market_value := "500"
  cost_basis := "480"
  avg_entry_price := "12"
  unrealized_pl := "20"
  unrealized_plpc := "0.04"
  current_price := "12.5"

/-- C6, the code evaluated at the failing input. A record with an
unparseable `qty` is not skipped: the mapping emits one output per input, the
malformed record is still present at its index, and its `qty` is `NaN`
(`none`) — the malformed value is propagated, not dropped. -/
theorem malformed_record_kept :
    (processPositions [rawPosOK, rawPosBad]).length = 2 ∧
    processPositions [rawPosOK, rawPosBad]
      = [mapPosition rawPosOK, mapPosition rawPosBad] ∧
    (mapPosition rawPosBad).qty = none ∧
    (mapPosition rawPosBad).symbol = "CLSK" := by
  refine ⟨rfl, rfl, ?_, rfl⟩
  decide

/-! ## C5 / C9 / C10: the historical-bars fetch-and-cache cycle
(spy-bars / qqq-bars / stock-bars branches, which share their code) -/

/-- One entry of the upstream `'Time Series (60min)'` object, in the object's
key order: the bar timestamp (the key, normalized to epoch ms) and the raw
`'4. close'` string. -/
structure TsEntry where
  t : ℤ
  close : String
deriving DecidableEq, Repr

/-- The live fetch as observed by the handler: a thrown exception (network
failure or unparseable body), a non-2xx response, or a JSON body whose
`'Time Series (60min)'` member is absent / not an object (`none`) or a list
of entries. -/
inductive FetchOutcome where
  | thrown
  | notOk
  | ok (timeSeries : Option (List TsEntry))
deriving DecidableEq, Repr

/-- A response bar `{ t, c }`; `c` is `parseFloat(values['4. close'])`, so
`none` is `NaN`. -/
structure Bar where
  t : ℤ
  c : Option ℚ
deriving DecidableEq, Repr

/-- The response body: `{ bars: null }` (`none`) or `{ bars: [...] }`. -/
def BarsPayload : Type := Option (List Bar)

/-- Bar timestamp order (the `(a, b) => time(a) - time(b)` comparator). -/
def barLE (a b : Bar) : Prop := a.t ≤ b.t

instance : DecidableRel barLE := fun a b =>
  inferInstanceAs (Decidable (a.t ≤ b.t))

instance : IsTotal Bar barLE := ⟨fun a b => le_total a.t b.t⟩

instance : IsTrans Bar barLE := ⟨fun _ _ _ h h' => le_trans h h'⟩

/-- The fetch-and-fill part of the branch: every failure path returns
`{ bars: null }` and leaves the cache alone; a valid time series is mapped to
bars, sorted ascending by timestamp, cached and returned. -/
def barsFetch (cache : Cache BarsPayload) (key : String) (now : ℤ) :
    FetchOutcome → BarsPayload × Cache BarsPayload
  | .thrown => (none, cache)
  | .notOk => (none, cache)
  | .ok none => (none, cache)
  | .ok (some entries) =>
    let bars := List.insertionSort barLE
      (entries.map fun e => ⟨e.t, jsParseFloat e.close⟩)
    (some bars, cachePut cache key (some bars) now)

/-- The whole branch: serve a fresh cached payload, otherwise run the live
fetch cycle. -/
def barsHandler (cache : Cache BarsPayload) (key : String) (now : ℤ)
    (fetch : FetchOutcome) : BarsPayload × Cache BarsPayload :=
  match cacheGet cache key with
  | some e =>
    if now - e.timestamp < CACHE_DURATION_MS then (e.data, cache)
    else barsFetch cache key now fetch
  | none => barsFetch cache key now fetch

theorem barsHandler_of_get_none {cache : Cache BarsPayload} {key : String}
    {now : ℤ} {fetch : FetchOutcome} (h : cacheGet cache key = none) :
    barsHandler cache key now fetch = barsFetch cache key now fetch := by
  unfold barsHandler
  rw [h]

theorem barsHandler_hit {cache : Cache BarsPayload} {key : String} {now : ℤ}
    {fetch : FetchOutcome} {e : CEntry BarsPayload}
    (h : cacheGet cache key = some e)
    (hfresh : now - e.timestamp < CACHE_DURATION_MS) :
    barsHandler cache key now fetch = (e.data, cache) := by
  unfold barsHandler
  rw [h]
  show (if now - e.timestamp < CACHE_DURATION_MS then (e.data, cache)
      else barsFetch cache key now fetch) = (e.data, cache)
  rw [if_pos hfresh]

theorem barsHandler_stale {cache : Cache BarsPayload} {key : String} {now : ℤ}
    {fetch : FetchOutcome} {e : CEntry BarsPayload}
    (h : cacheGet cache key = some e)
    (hstale : ¬ now - e.timestamp < CACHE_DURATION_MS) :
    barsHandler cache key now fetch = barsFetch cache key now fetch := by
  unfold barsHandler
  rw [h]
  show (if now - e.timestamp < CACHE_DURATION_MS then (e.data, cache)
      else barsFetch cache key now fetch) = barsFetch cache key now fetch
  rw [if_neg hstale]

/-- C5. On a cache miss (no entry, or an entry at least the bars TTL old)
whose live fetch fails — exception, non-2xx, or a body with no valid time
series — the branch returns the `{ bars: null }` "no data" sentinel, never
the stale cached payload. -/
theorem miss_failed_fetch_no_data (cache : Cache BarsPayload) (key : String)
    (now : ℤ) (fetch : FetchOutcome)
    (hmiss : cacheGet cache key = none ∨
      ∃ e, cacheGet cache key = some e ∧ ¬ now - e.timestamp < CACHE_DURATION_MS)
    (hfail : fetch = .thrown ∨ fetch = .notOk ∨ fetch = .ok none) :
    (barsHandler cache key now fetch).1 = none := by
  have hfetch : (barsFetch cache key now fetch).1 = none := by
    rcases hfail with rfl | rfl | rfl <;> rfl
  rcases hmiss with h | ⟨e, he, hstale⟩
  · rw [barsHandler_of_get_none h]
    exact hfetch
  · rw [barsHandler_stale he hstale]
    exact hfetch

theorem miss_failed_fetch_no_data_witness :
    (cacheGet (cachePut ([] : Cache BarsPayload)
        "spy-bars:2024-10-01:2024-10-08" (some []) 0)
        "spy-bars:2024-10-01:2024-10-08"
      = some ⟨some [], 0⟩ ∧
      ¬ ((1000000000 : ℤ) - 0 < CACHE_DURATION_MS)) ∧
    (barsHandler (cachePut ([] : Cache BarsPayload)
        "spy-bars:2024-10-01:2024-10-08" (some []) 0)
      "spy-bars:2024-10-01:2024-10-08" 1000000000 .notOk).1 = none := by
  refine ⟨⟨rfl, by norm_num [CACHE_DURATION_MS]⟩, ?_⟩
  exact miss_failed_fetch_no_data _ _ _ _
    (Or.inr ⟨⟨some [], 0⟩, rfl, by norm_num [CACHE_DURATION_MS]⟩)
    (Or.inr (Or.inl rfl))

/-- C9. If the live fetch of a historical-bars request fails (exception,
non-2xx, or no valid time series in the body), the cache is left exactly
unchanged: nothing is created, overwritten or removed. -/
theorem failed_fetch_cache_unchanged (cache : Cache BarsPayload) (key : String)
    (now : ℤ) (fetch : FetchOutcome)
    (hfail : fetch = .thrown ∨ fetch = .notOk ∨ fetch = .ok none) :
    (barsHandler cache key now fetch).2 = cache := by
  have hfetch : (barsFetch cache key now fetch).2 = cache := by
    rcases hfail with rfl | rfl | rfl <;> rfl
  cases h : cacheGet cache key with
  | none =>
    rw [barsHandler_of_get_none h]
    exact hfetch
  | some e =>
    by_cases hfresh : now - e.timestamp < CACHE_DURATION_MS
    · rw [barsHandler_hit h hfresh]
    · rw [barsHandler_stale h hfresh]
      exact hfetch

theorem failed_fetch_cache_unchanged_witness :
    ((FetchOutcome.thrown = .thrown ∨ FetchOutcome.thrown = .notOk ∨
        FetchOutcome.thrown = .ok none) ∧
      (barsHandler ([] : Cache BarsPayload) "spy-bars:2024-10-01:2024-10-08"
        7 .thrown).2 = []) := by
  exact ⟨Or.inl rfl, failed_fetch_cache_unchanged [] _ 7 .thrown (Or.inl rfl)⟩

/-- All bars payloads reachable through the cache are ascending in timestamp. -/
def SortedBarsCache (cache : Cache BarsPayload) : Prop :=
  ∀ (k : String) (e : CEntry BarsPayload) (bars : List Bar),
    cacheGet cache k = some e → e.data = some bars → bars.Pairwise barLE

/-- C10. Whatever the key order of the upstream time-series object, the
branch returns a bars list sorted ascending by timestamp, and it keeps every
cached bars payload sorted ascending by timestamp (so cache-served responses
are sorted too). -/
theorem bars_sorted (cache : Cache BarsPayload) (key : String) (now : ℤ)
    (fetch : FetchOutcome) (hinv : SortedBarsCache cache) :
    SortedBarsCache (barsHandler cache key now fetch).2 ∧
    (∀ bars, (barsHandler cache key now fetch).1 = some bars →
      bars.Pairwise barLE) := by
  have hfetchCase : ∀ entries : List TsEntry,
      (barsFetch cache key now (.ok (some entries))).1
          = some (List.insertionSort barLE
            (entries.map fun e => ⟨e.t, jsParseFloat e.close⟩)) ∧
      (barsFetch cache key now (.ok (some entries))).2
          = cachePut cache key (some (List.insertionSort barLE
            (entries.map fun e => ⟨e.t, jsParseFloat e.close⟩))) now :=
    fun _ => ⟨rfl, rfl⟩
  have hsortFetch : ∀ fetch' : FetchOutcome,
      SortedBarsCache (barsFetch cache key now fetch').2 ∧
      (∀ bars, (barsFetch cache key now fetch').1 = some bars →
        bars.Pairwise barLE) := by
    intro fetch'
    cases fetch' with
    | thrown => exact ⟨hinv, by intro bars h; cases h⟩
    | notOk => exact ⟨hinv, by intro bars h; cases h⟩
    | ok ts =>
      cases ts with
      | none => exact ⟨hinv, by intro bars h; cases h⟩
      | some entries =>
        constructor
        · intro k e bars hk he
          rw [(hfetchCase entries).2] at hk
          unfold cachePut cacheGet at hk
          rw [objGet_objSet] at hk
          by_cases hkey : key = k
          · rw [if_pos hkey] at hk
            injection hk with hk'
            rw [← hk'] at he
            simp only at he
            injection he with he'
            rw [← he']
            exact List.sorted_insertionSort barLE _
          · rw [if_neg hkey] at hk
            exact hinv k e bars hk he
        · intro bars h
          rw [(hfetchCase entries).1] at h
          injection h with h'
          rw [← h']
          exact List.sorted_insertionSort barLE _
  cases h : cacheGet cache key with
  | none =>
    rw [barsHandler_of_get_none h]
    exact hsortFetch fetch
  | some e =>
    by_cases hfresh : now - e.timestamp < CACHE_DURATION_MS
    · rw [barsHandler_hit h hfresh]
      refine ⟨hinv, ?_⟩
      intro bars hb
      exact hinv key e bars h hb
    · rw [barsHandler_stale h hfresh]
      exact hsortFetch fetch

theorem bars_sorted_witness :
    SortedBarsCache ([] : Cache BarsPayload) ∧
    (∀ bars,
      (barsHandler ([] : Cache BarsPayload) "spy-bars:2024-10-01:2024-10-08" 7
        (.ok (some [⟨2, "5"⟩, ⟨1, "4"⟩]))).1 = some bars →
      bars.Pairwise barLE) := by
  have hempty : SortedBarsCache ([] : Cache BarsPayload) := by
    intro k e bars hk
    cases hk
  exact ⟨hempty, (bars_sorted [] "spy-bars:2024-10-01:2024-10-08" 7
    (.ok (some [⟨2, "5"⟩, ⟨1, "4"⟩])) hempty).2⟩

end Dash
